import Mathlib

/-!
Shallow embedding of the XOR-decrypter core (`src/unnamed/part_002`):
the repeating-key XOR transform `xorBuffer` and the key codec
(`hexToUint8Array`, `uint8ArrayToHex`, `stringToUint8Array`,
`uint8ArrayToString`, `base64ToUint8Array`, `uint8ArrayToBase64`).

Byte buffers (`ArrayBuffer` / `Uint8Array`) are modelled as `List Nat`
whose elements are below 256; JavaScript strings are modelled as lists
of their character codes (`List Nat`).
-/

namespace XorLab

/-- Model of `xorBuffer`: if the key is empty the buffer is returned
unchanged; otherwise output byte `i` is `input[i] ^ key[i % keyLength]`,
stored into a `Uint8Array` slot (hence the `% 256`, mirroring the
`ToUint8` conversion of the element store). -/
def xorBuffer (buffer : List Nat) (key : List Nat) : List Nat :=
  if key.length = 0 then buffer
  else (List.range buffer.length).map
    (fun i => (Nat.xor (buffer.getD i 0) (key.getD (i % key.length) 0)) % 256)

/-- A character code is a hex digit iff it matches `[0-9a-fA-F]`. -/
def isHexDigit (c : Nat) : Bool :=
  (48 ≤ c && c ≤ 57) || (97 ≤ c && c ≤ 102) || (65 ≤ c && c ≤ 70)

/-- Numeric value of a hex digit character (as `parseInt(·, 16)` sees it). -/
def hexDigitVal (c : Nat) : Nat :=
  if c ≤ 57 then c - 48 else if c ≤ 70 then c - 55 else c - 87

/-- Model of `cleanHex.match(/.{1,2}/g)`: split a string into consecutive
chunks of two characters, a final lone character forming a 1-chunk.
(`match` returning `null` on the empty string corresponds to `[]`.) -/
def chunks2 : List Nat → List (List Nat)
  | c0 :: c1 :: rest => [c0, c1] :: chunks2 rest
  | [c0] => [[c0]]
  | [] => []

/-- `parseInt(chunk, 16)` on a 1- or 2-character hex chunk. -/
def parseChunk : List Nat → Nat
  | [c0, c1] => hexDigitVal c0 * 16 + hexDigitVal c1
  | [c0] => hexDigitVal c0
  | _ => 0

/-- Model of `hexToUint8Array`: strip every non-hex character, split the
remainder into chunks of up to two characters, parse each as base 16. -/
def hexToUint8Array (s : List Nat) : List Nat :=
  (chunks2 (s.filter isHexDigit)).map parseChunk

theorem xorBuffer_length (b k : List Nat) : (xorBuffer b k).length = b.length := by
  unfold xorBuffer; split <;> simp

theorem xorBuffer_getElem (b k : List Nat) (hk : ¬ k.length = 0) (i : Nat)
    (hi : i < (xorBuffer b k).length) :
    (xorBuffer b k)[i] = (Nat.xor (b.getD i 0) (k.getD (i % k.length) 0)) % 256 := by
  unfold xorBuffer at hi ⊢
  simp only [if_neg hk] at hi ⊢
  simp at hi
  simp [hi]

theorem xor_mod_cancel {x y : Nat} (hx : x < 256) (hy : y < 256) :
    (Nat.xor ((Nat.xor x y) % 256) y) % 256 = x := by
  have h1 : Nat.xor x y < 256 := by
    have := Nat.xor_lt_two_pow (n := 8) (by simpa using hx) (by simpa using hy)
    simpa using this
  have h2 : Nat.xor (Nat.xor x y) y = x := Nat.xor_cancel_right y x
  rw [Nat.mod_eq_of_lt h1, h2, Nat.mod_eq_of_lt hx]

theorem getD_lt_of_forall {l : List Nat} (hl : ∀ x ∈ l, x < 256) (i : Nat) :
    l.getD i 0 < 256 := by
  by_cases h : i < l.length
  · rw [List.getD_eq_getElem _ _ h]
    exact hl _ (List.getElem_mem h)
  · rw [List.getD_eq_default _ _ (Nat.le_of_not_lt h)]
    norm_num

/-- C1: for every byte sequence `b` and non-empty key byte sequence `k`,
applying the XOR transform twice with the same key reproduces the input:
`xorBuffer (xorBuffer b k) k = b` (involution). -/
theorem xorBuffer_involution (b k : List Nat) (hb : ∀ x ∈ b, x < 256)
    (hk256 : ∀ x ∈ k, x < 256) (hk : k ≠ []) :
    xorBuffer (xorBuffer b k) k = b := by
  have hk0 : ¬ k.length = 0 := by simpa [List.length_eq_zero] using hk
  apply List.ext_getElem
  · rw [xorBuffer_length, xorBuffer_length]
  intro i h1 h2
  have hib : i < (xorBuffer b k).length := by rwa [xorBuffer_length]
  rw [xorBuffer_getElem _ _ hk0 i h1]
  rw [List.getD_eq_getElem _ _ hib, xorBuffer_getElem _ _ hk0 i hib]
  rw [xor_mod_cancel (getD_lt_of_forall hb i) (getD_lt_of_forall hk256 (i % k.length))]
  exact List.getD_eq_getElem b 0 h2

/-- Witness for C1 at concrete scenario 1 of the spec: input "Hello"
bytes with single-byte key `0x2A`. -/
theorem xorBuffer_involution_witness :
    xorBuffer (xorBuffer [0x48, 0x65, 0x6C, 0x6C, 0x6F] [0x2A]) [0x2A]
      = [0x48, 0x65, 0x6C, 0x6C, 0x6F] :=
  xorBuffer_involution _ _ (by decide) (by decide) (by decide)

/-- C2: for every input `b` and non-empty key `k`, the transform output
has the length of `b` and output byte `i` equals `input[i] XOR key[i mod len(k)]`. -/
theorem xorBuffer_spec (b k : List Nat) (hb : ∀ x ∈ b, x < 256)
    (hk256 : ∀ x ∈ k, x < 256) (hk : k ≠ []) :
    (xorBuffer b k).length = b.length ∧
    ∀ i, i < b.length →
      (xorBuffer b k).getD i 0 = Nat.xor (b.getD i 0) (k.getD (i % k.length) 0) := by
  have hk0 : ¬ k.length = 0 := by simpa [List.length_eq_zero] using hk
  refine ⟨xorBuffer_length b k, fun i hi => ?_⟩
  have hib : i < (xorBuffer b k).length := by rwa [xorBuffer_length]
  rw [List.getD_eq_getElem _ _ hib, xorBuffer_getElem _ _ hk0 i hib]
  have hxor : Nat.xor (b.getD i 0) (k.getD (i % k.length) 0) < 256 := by
    have := Nat.xor_lt_two_pow (n := 8) (x := b.getD i 0) (y := k.getD (i % k.length) 0)
      (by simpa using getD_lt_of_forall hb i)
      (by simpa using getD_lt_of_forall hk256 (i % k.length))
    simpa using this
  exact Nat.mod_eq_of_lt hxor

/-- Witness for C2 at concrete scenario 1: `0x48 XOR 0x2A = 0x62` and the
output length is 5. -/
theorem xorBuffer_spec_witness :
    (xorBuffer [0x48, 0x65, 0x6C, 0x6C, 0x6F] [0x2A]).length = 5 ∧
    (xorBuffer [0x48, 0x65, 0x6C, 0x6C, 0x6F] [0x2A]).getD 0 0 = 0x62 := by
  have h := xorBuffer_spec [0x48, 0x65, 0x6C, 0x6C, 0x6F] [0x2A]
    (by decide) (by decide) (by decide)
  refine ⟨by rw [h.1]; rfl, ?_⟩
  rw [h.2 0 (by decide)]
  decide

/-- C6: the XOR transform with an empty key is a no-op returning the
input unchanged: `xorBuffer b [] = b`. -/
theorem xorBuffer_empty_key (b : List Nat) : xorBuffer b [] = b := by
  simp [xorBuffer]

/-- Lowercase hex digit character for a value below 16. -/
def hexDigitChar (v : Nat) : Nat :=
  if v ≤ 9 then v + 48 else v + 87

/-- Model of `uint8ArrayToHex`: each byte rendered as exactly two
lowercase hex digits (`b.toString(16).padStart(2, '0')`), concatenated. -/
def uint8ArrayToHex (a : List Nat) : List Nat :=
  a.flatMap (fun b => [hexDigitChar (b / 16), hexDigitChar (b % 16)])

theorem hexDigitChar_isHexDigit : ∀ v < 16, isHexDigit (hexDigitChar v) = true := by
  decide

theorem hexDigitVal_hexDigitChar : ∀ v < 16, hexDigitVal (hexDigitChar v) = v := by
  decide

theorem hexDigitVal_lt_16 (c : Nat) (h : isHexDigit c = true) : hexDigitVal c < 16 := by
  simp only [isHexDigit, Bool.or_eq_true, Bool.and_eq_true, decide_eq_true_eq] at h
  unfold hexDigitVal
  rcases h with ⟨h1, h2⟩ | ⟨h1, h2⟩ | ⟨h1, h2⟩ <;> split <;> (try split) <;> omega

theorem chunks2_length (l : List Nat) : (chunks2 l).length = (l.length + 1) / 2 := by
  induction l using chunks2.induct with
  | case1 c0 c1 rest ih => simp [chunks2, ih]; omega
  | case2 c0 => simp [chunks2]
  | case3 => rfl

theorem chunks2_append_singleton (t : List Nat) (c : Nat) (h : t.length % 2 = 0) :
    chunks2 (t ++ [c]) = chunks2 t ++ [[c]] := by
  induction t using chunks2.induct with
  | case1 c0 c1 rest ih =>
    simp only [List.length_cons] at h
    simp only [List.cons_append, chunks2, List.cons.injEq]
    exact ⟨trivial, ih (by omega)⟩
  | case2 c0 => simp at h
  | case3 => rfl

/-- C3: hex round trip — decoding the hex encoding of any byte sequence
yields the bytes back. -/
theorem hex_roundtrip (b : List Nat) (hb : ∀ x ∈ b, x < 256) :
    hexToUint8Array (uint8ArrayToHex b) = b := by
  induction b with
  | nil => rfl
  | cons x rest ih =>
    have hx : x < 256 := hb x (List.mem_cons_self x rest)
    have hrest := ih (fun y hy => hb y (List.mem_cons_of_mem x hy))
    have hdiv : x / 16 < 16 := by omega
    have hmod : x % 16 < 16 := by omega
    unfold hexToUint8Array uint8ArrayToHex at hrest ⊢
    simp only [List.flatMap_cons, List.cons_append, List.nil_append, List.filter_cons,
      hexDigitChar_isHexDigit _ hdiv, hexDigitChar_isHexDigit _ hmod, if_true]
    simp only [chunks2, List.map_cons, hrest, List.cons.injEq, and_true]
    simp only [parseChunk, hexDigitVal_hexDigitChar _ hdiv, hexDigitVal_hexDigitChar _ hmod]
    omega

/-- Witness for C3 at the bytes `[0xDE, 0xAD, 0xBE, 0xEF]`. -/
theorem hex_roundtrip_witness :
    hexToUint8Array (uint8ArrayToHex [0xDE, 0xAD, 0xBE, 0xEF]) = [0xDE, 0xAD, 0xBE, 0xEF] :=
  hex_roundtrip _ (by decide)

/-- C9: hex decode strips every non-hex character before parsing (decoding
a string equals decoding its hex-filtered remainder), the mixed-case
noisy string `"de:ad-BE#EF"` decodes to `[0xDE, 0xAD, 0xBE, 0xEF]`, and a
string with no hex characters decodes to the empty sequence. -/
theorem hexToUint8Array_strips :
    (∀ s : List Nat, hexToUint8Array s = hexToUint8Array (s.filter isHexDigit)) ∧
    hexToUint8Array [100, 101, 58, 97, 100, 45, 66, 69, 35, 69, 70]
      = [0xDE, 0xAD, 0xBE, 0xEF] ∧
    (∀ s : List Nat, (∀ c ∈ s, isHexDigit c = false) → hexToUint8Array s = []) := by
  refine ⟨fun s => ?_, by decide, fun s h => ?_⟩
  · simp [hexToUint8Array, List.filter_filter]
  · have hnil : s.filter isHexDigit = [] :=
      List.filter_eq_nil_iff.mpr (by simpa using h)
    simp [hexToUint8Array, hnil, chunks2]

/-- Witness for C9: the all-invalid string `"zz"` decodes to the empty
sequence. -/
theorem hexToUint8Array_strips_witness : hexToUint8Array [122, 122] = [] :=
  hexToUint8Array_strips.2.2 [122, 122] (by decide)

theorem hex_odd_decomp (s : List Nat) (hodd : (s.filter isHexDigit).length % 2 = 1) :
    ∃ t c, s.filter isHexDigit = t ++ [c] ∧ isHexDigit c = true ∧
      hexToUint8Array s = (chunks2 t).map parseChunk ++ [hexDigitVal c] ∧
      hexDigitVal c < 16 := by
  have hne : s.filter isHexDigit ≠ [] := by
    intro h; rw [h] at hodd; simp at hodd
  refine ⟨(s.filter isHexDigit).dropLast, (s.filter isHexDigit).getLast hne, ?_, ?_, ?_, ?_⟩
  · exact (List.dropLast_append_getLast hne).symm
  · exact List.of_mem_filter (List.getLast_mem hne)
  · unfold hexToUint8Array
    have hdl : (s.filter isHexDigit).dropLast.length % 2 = 0 := by
      rw [List.length_dropLast]; omega
    conv_lhs => rw [← List.dropLast_append_getLast hne, chunks2_append_singleton _ _ hdl]
    simp [parseChunk]
  · exact hexDigitVal_lt_16 _ (List.of_mem_filter (List.getLast_mem hne))

/-- C10: the decode output length is the ceiling of half the stripped
length; when the stripped remainder has odd length, the trailing lone hex
digit is parsed as the final output byte, whose value is that digit's
value, below 16. -/
theorem hexToUint8Array_odd_length (s : List Nat) :
    (hexToUint8Array s).length = ((s.filter isHexDigit).length + 1) / 2 ∧
    ((s.filter isHexDigit).length % 2 = 1 →
      ∃ t c, s.filter isHexDigit = t ++ [c] ∧ isHexDigit c = true ∧
        hexToUint8Array s = (chunks2 t).map parseChunk ++ [hexDigitVal c] ∧
        hexDigitVal c < 16) := by
  constructor
  · simp [hexToUint8Array, chunks2_length]
  · exact hex_odd_decomp s

/-- Witness for C10 at `"abc"`: odd stripped length 3 yields 2 bytes with
the lone nibble `c` as the final byte `0x0C`. -/
theorem hexToUint8Array_odd_length_witness :
    ∃ t c, ([97, 98, 99] : List Nat).filter isHexDigit = t ++ [c] ∧ isHexDigit c = true ∧
      hexToUint8Array [97, 98, 99] = (chunks2 t).map parseChunk ++ [hexDigitVal c] ∧
      hexDigitVal c < 16 :=
  (hexToUint8Array_odd_length [97, 98, 99]).2 (by decide)

/-- C4 counterexample: the claim says the trailing lone nibble of an
odd-length stripped hex string is discarded; on `"abc"` that would give
`[0xAB]`, but the code returns `[0xAB, 0x0C]`. -/
theorem hex_odd_drop_counterexample :
    hexToUint8Array [97, 98, 99] = [0xAB, 0x0C] ∧
    hexToUint8Array [97, 98, 99] ≠ [0xAB] := by
  decide

/-- C4 amended: for a key string whose stripped remainder has odd length,
the trailing lone nibble is not discarded — the decode output is the
decode of the even-length prefix followed by one extra byte holding that
digit's value. -/
theorem hex_odd_keeps_last_nibble (s : List Nat)
    (hodd : (s.filter isHexDigit).length % 2 = 1) :
    ∃ t c, s.filter isHexDigit = t ++ [c] ∧
      hexToUint8Array s = hexToUint8Array t ++ [hexDigitVal c] := by
  obtain ⟨t, c, hsplit, _, hdec, _⟩ := hex_odd_decomp s hodd
  refine ⟨t, c, hsplit, ?_⟩
  have htfil : t.filter isHexDigit = t := by
    apply List.filter_eq_self.mpr
    intro a ha
    exact List.of_mem_filter (a := a) (by rw [hsplit]; exact List.mem_append_left _ ha)
  rw [hdec]
  unfold hexToUint8Array
  rw [htfil]

/-- Witness for C4's amended claim at `"abc"`. -/
theorem hex_odd_keeps_last_nibble_witness :
    ∃ t c, ([97, 98, 99] : List Nat).filter isHexDigit = t ++ [c] ∧
      hexToUint8Array [97, 98, 99] = hexToUint8Array t ++ [hexDigitVal c] :=
  hex_odd_keeps_last_nibble [97, 98, 99] (by decide)

/-! ### Base64 codec (`uint8ArrayToBase64` via `btoa`, `base64ToUint8Array` via `atob`) -/

/-- The standard base64 alphabet, as character codes:
`A`–`Z`, `a`–`z`, `0`–`9`, `+`, `/`. -/
def b64Alphabet : List Nat :=
  [65, 66, 67, 68, 69, 70, 71, 72, 73, 74, 75, 76, 77, 78, 79, 80, 81, 82, 83, 84,
   85, 86, 87, 88, 89, 90,
   97, 98, 99, 100, 101, 102, 103, 104, 105, 106, 107, 108, 109, 110, 111, 112,
   113, 114, 115, 116, 117, 118, 119, 120, 121, 122,
   48, 49, 50, 51, 52, 53, 54, 55, 56, 57, 43, 47]

/-- Character for a 6-bit group. -/
def b64Char (v : Nat) : Nat := b64Alphabet.getD (v % 64) 0

/-- 6-bit value of an alphabet character, `none` outside the alphabet
(`=` included: remaining padding characters are invalid for `atob`). -/
def b64Val (c : Nat) : Option Nat := List.indexOf? c b64Alphabet

/-- The 6-bit groups `btoa` derives from a byte sequence: each 3-byte
chunk yields four sextets; a trailing 1- or 2-byte chunk yields two or
three sextets with zero fill bits. -/
def b64Sextets : List Nat → List Nat
  | b0 :: b1 :: b2 :: rest =>
      b0 / 4 :: ((b0 % 4) * 16 + b1 / 16) :: ((b1 % 16) * 4 + b2 / 64) :: (b2 % 64)
        :: b64Sextets rest
  | [b0, b1] => [b0 / 4, (b0 % 4) * 16 + b1 / 16, (b1 % 16) * 4]
  | [b0] => [b0 / 4, (b0 % 4) * 16]
  | [] => []

/-- Padding characters appended by `btoa`, by input length mod 3. -/
def b64Pad (n : Nat) : List Nat :=
  if n % 3 = 1 then [61, 61] else if n % 3 = 2 then [61] else []

/-- Model of `uint8ArrayToBase64`: build the binary string from the bytes
and `btoa` it — standard base64 with padding, no line wrapping. -/
def uint8ArrayToBase64 (a : List Nat) : List Nat :=
  (b64Sextets a).map b64Char ++ b64Pad a.length

/-- ASCII whitespace, removed by forgiving base64 decoding. -/
def isB64Ws (c : Nat) : Bool := c = 9 || c = 10 || c = 12 || c = 13 || c = 32

/-- Remove ASCII whitespace (first step of `atob`'s forgiving decode). -/
def stripWs (s : List Nat) : List Nat := s.filter (fun c => ! isB64Ws c)

/-- Remove up to two trailing `=` characters. -/
def stripPad (t : List Nat) : List Nat :=
  if t.getLast? = some 61 then
    if t.dropLast.getLast? = some 61 then t.dropLast.dropLast else t.dropLast
  else t

/-- The character payload `atob` actually decodes: whitespace removed and,
when the length is a multiple of four, trailing padding removed. -/
def b64Body (s : List Nat) : List Nat :=
  if (stripWs s).length % 4 = 0 then stripPad (stripWs s) else stripWs s

/-- Bytes from a list of sextets: each group of four sextets yields three
bytes; a trailing group of two or three yields one or two bytes, the
leftover fill bits being discarded (forgiving decode). -/
def b64DecodeVals : List Nat → List Nat
  | v0 :: v1 :: v2 :: v3 :: rest =>
      (v0 * 4 + v1 / 16) :: ((v1 % 16) * 16 + v2 / 4) :: ((v2 % 4) * 64 + v3)
        :: b64DecodeVals rest
  | [v0, v1] => [v0 * 4 + v1 / 16]
  | [v0, v1, v2] => [v0 * 4 + v1 / 16, (v1 % 16) * 16 + v2 / 4]
  | _ => []

/-- Model of `atob` (WHATWG forgiving-base64 decode): fails when the
depadded payload length is 1 mod 4 or when any payload character is
outside the alphabet; otherwise converts the sextets to bytes. -/
def atob (s : List Nat) : Option (List Nat) :=
  if (b64Body s).length % 4 = 1 then none
  else if (b64Body s).all (fun c => (b64Val c).isSome) then
    some (b64DecodeVals ((b64Body s).map (fun c => (b64Val c).getD 0)))
  else none

/-- Model of `base64ToUint8Array`: `atob` wrapped in `try`/`catch`, the
failure case returning an empty array. -/
def base64ToUint8Array (s : List Nat) : List Nat := (atob s).getD []

theorem b64_alphabet_prop : ∀ w < 64,
    isB64Ws (b64Alphabet.getD w 0) = false ∧
    b64Alphabet.getD w 0 ≠ 61 ∧
    b64Val (b64Alphabet.getD w 0) = some w := by
  decide

theorem b64Char_not_ws (v : Nat) : isB64Ws (b64Char v) = false :=
  (b64_alphabet_prop (v % 64) (Nat.mod_lt v (by norm_num))).1

theorem b64Char_ne_61 (v : Nat) : b64Char v ≠ 61 :=
  (b64_alphabet_prop (v % 64) (Nat.mod_lt v (by norm_num))).2.1

theorem b64Val_b64Char (v : Nat) : b64Val (b64Char v) = some (v % 64) :=
  (b64_alphabet_prop (v % 64) (Nat.mod_lt v (by norm_num))).2.2

theorem stripWs_encode (b : List Nat) :
    stripWs (uint8ArrayToBase64 b) = uint8ArrayToBase64 b := by
  apply List.filter_eq_self.mpr
  intro c hc
  rw [uint8ArrayToBase64] at hc
  rcases List.mem_append.mp hc with h | h
  · obtain ⟨v, _, rfl⟩ := List.mem_map.mp h
    simp [b64Char_not_ws]
  · have hc61 : c = 61 := by
      unfold b64Pad at h
      split at h
      · rcases List.mem_cons.mp h with h1 | h1
        · exact h1
        · simpa using h1
      · split at h
        · simpa using h
        · simp at h
    subst hc61
    decide

theorem b64Sextets_length (b : List Nat) :
    (b64Sextets b).length =
      4 * (b.length / 3) + (if b.length % 3 = 0 then 0 else b.length % 3 + 1) := by
  induction b using b64Sextets.induct with
  | case1 b0 b1 b2 rest ih =>
    simp only [b64Sextets, List.length_cons, ih]
    have h3 : (rest.length + 1 + 1 + 1) % 3 = rest.length % 3 := by omega
    have h4 : (rest.length + 1 + 1 + 1) / 3 = rest.length / 3 + 1 := by omega
    rw [h3, h4]
    split <;> omega
  | case2 b0 b1 => simp [b64Sextets]
  | case3 b0 => simp [b64Sextets]
  | case4 => rfl

theorem encode_length_mod4 (b : List Nat) : (uint8ArrayToBase64 b).length % 4 = 0 := by
  unfold uint8ArrayToBase64 b64Pad
  rw [List.length_append, List.length_map, b64Sextets_length]
  split_ifs <;> simp <;> omega

theorem map_getLast?_ne_61 (sx : List Nat) : (sx.map b64Char).getLast? ≠ some 61 := by
  intro h
  obtain ⟨hne, heq⟩ := List.mem_getLast?_eq_getLast (Option.mem_def.mpr h)
  have hmem : (61 : Nat) ∈ sx.map b64Char := heq ▸ List.getLast_mem hne
  obtain ⟨v, _, hv⟩ := List.mem_map.mp hmem
  exact b64Char_ne_61 v hv

theorem stripPad_append (x : List Nat) (hx : x.getLast? ≠ some 61) (p : List Nat)
    (hp : p = [] ∨ p = [61] ∨ p = [61, 61]) : stripPad (x ++ p) = x := by
  unfold stripPad
  rcases hp with rfl | rfl | rfl
  · rw [List.append_nil, if_neg hx]
  · rw [List.getLast?_concat, if_pos rfl, List.dropLast_concat, if_neg hx]
  · have hsplit : x ++ [61, 61] = (x ++ [61]) ++ [61] := by simp
    rw [hsplit, List.getLast?_concat, if_pos rfl, List.dropLast_concat,
      List.getLast?_concat, if_pos rfl, List.dropLast_concat]

theorem b64Body_encode (b : List Nat) :
    b64Body (uint8ArrayToBase64 b) = (b64Sextets b).map b64Char := by
  unfold b64Body
  rw [stripWs_encode, if_pos (encode_length_mod4 b)]
  unfold uint8ArrayToBase64
  apply stripPad_append _ (map_getLast?_ne_61 _)
  unfold b64Pad
  split_ifs <;> simp

theorem b64Sextets_mod4_ne_one (b : List Nat) : (b64Sextets b).length % 4 ≠ 1 := by
  rw [b64Sextets_length]
  split_ifs <;> omega

theorem b64_all_valid (sx : List Nat) :
    (sx.map b64Char).all (fun c => (b64Val c).isSome) = true := by
  rw [List.all_eq_true]
  intro c hc
  obtain ⟨v, _, rfl⟩ := List.mem_map.mp hc
  show (b64Val (b64Char v)).isSome = true
  rw [b64Val_b64Char]
  rfl

theorem b64_map_roundtrip (sx : List Nat) (h : ∀ v ∈ sx, v < 64) :
    (sx.map b64Char).map (fun c => (b64Val c).getD 0) = sx := by
  induction sx with
  | nil => rfl
  | cons v rest ih =>
    have hv : v < 64 := h v (List.mem_cons_self v rest)
    simp only [List.map_cons, List.cons.injEq]
    constructor
    · show (b64Val (b64Char v)).getD 0 = v
      rw [b64Val_b64Char]
      simp [Nat.mod_eq_of_lt hv]
    · exact ih (fun y hy => h y (List.mem_cons_of_mem v hy))

theorem b64Sextets_lt (b : List Nat) :
    (∀ x ∈ b, x < 256) → ∀ v ∈ b64Sextets b, v < 64 := by
  induction b using b64Sextets.induct with
  | case1 b0 b1 b2 rest ih =>
    intro hb v hv
    have h0 : b0 < 256 := hb _ (by simp)
    have h1 : b1 < 256 := hb _ (by simp)
    have h2 : b2 < 256 := hb _ (by simp)
    simp only [b64Sextets, List.mem_cons] at hv
    rcases hv with rfl | rfl | rfl | rfl | hv
    · omega
    · omega
    · omega
    · omega
    · exact ih (fun y hy => hb y (by simp [hy])) v hv
  | case2 b0 b1 =>
    intro hb v hv
    have h0 : b0 < 256 := hb _ (by simp)
    have h1 : b1 < 256 := hb _ (by simp)
    simp only [b64Sextets, List.mem_cons] at hv
    rcases hv with rfl | rfl | rfl | hv
    · omega
    · omega
    · omega
    · simp at hv
  | case3 b0 =>
    intro hb v hv
    have h0 : b0 < 256 := hb _ (by simp)
    simp only [b64Sextets, List.mem_cons] at hv
    rcases hv with rfl | rfl | hv
    · omega
    · omega
    · simp at hv
  | case4 => intro _ v hv; simp [b64Sextets] at hv

theorem b64DecodeVals_sextets (b : List Nat) :
    (∀ x ∈ b, x < 256) → b64DecodeVals (b64Sextets b) = b := by
  induction b using b64Sextets.induct with
  | case1 b0 b1 b2 rest ih =>
    intro hb
    have h0 : b0 < 256 := hb _ (by simp)
    have h1 : b1 < 256 := hb _ (by simp)
    have h2 : b2 < 256 := hb _ (by simp)
    simp only [b64Sextets, b64DecodeVals, List.cons.injEq]
    exact ⟨by omega, by omega, by omega, ih (fun y hy => hb y (by simp [hy]))⟩
  | case2 b0 b1 =>
    intro hb
    have h0 : b0 < 256 := hb _ (by simp)
    have h1 : b1 < 256 := hb _ (by simp)
    simp only [b64Sextets, b64DecodeVals, List.cons.injEq]
    exact ⟨by omega, by omega, trivial⟩
  | case3 b0 =>
    intro hb
    have h0 : b0 < 256 := hb _ (by simp)
    simp only [b64Sextets, b64DecodeVals, List.cons.injEq]
    exact ⟨by omega, trivial⟩
  | case4 => intro _; rfl

/-- C5: base64 round trip — decoding the base64 encoding of any byte
sequence yields the bytes back; concretely, `[0x48,0x65,0x6C,0x6C,0x6F]`
encodes to `"SGVsbG8="` and that string decodes to the same bytes. -/
theorem base64_roundtrip :
    (∀ b : List Nat, (∀ x ∈ b, x < 256) →
      base64ToUint8Array (uint8ArrayToBase64 b) = b) ∧
    uint8ArrayToBase64 [0x48, 0x65, 0x6C, 0x6C, 0x6F] = [83, 71, 86, 115, 98, 71, 56, 61] ∧
    base64ToUint8Array [83, 71, 86, 115, 98, 71, 56, 61] = [0x48, 0x65, 0x6C, 0x6C, 0x6F] := by
  refine ⟨fun b hb => ?_, by decide, by decide⟩
  unfold base64ToUint8Array atob
  rw [b64Body_encode, List.length_map, if_neg (b64Sextets_mod4_ne_one b),
    if_pos (b64_all_valid _), b64_map_roundtrip _ (b64Sextets_lt b hb),
    b64DecodeVals_sextets b hb]
  rfl

/-- Witness for C5's universally quantified part at the "Hello" bytes. -/
theorem base64_roundtrip_witness :
    base64ToUint8Array (uint8ArrayToBase64 [0x48, 0x65, 0x6C, 0x6C, 0x6F])
      = [0x48, 0x65, 0x6C, 0x6C, 0x6F] :=
  base64_roundtrip.1 _ (by decide)

/-- C8: base64 decode never fails the caller — whenever `atob` rejects the
input, `base64ToUint8Array` returns the empty byte sequence, and the empty
string likewise decodes to a zero-length key. -/
theorem base64_malformed_empty :
    (∀ s : List Nat, atob s = none → base64ToUint8Array s = []) ∧
    base64ToUint8Array [] = [] := by
  refine ⟨fun s h => ?_, rfl⟩
  simp [base64ToUint8Array, h]

/-- Witness for C8 at the malformed one-character string `"a"`. -/
theorem base64_malformed_empty_witness :
    base64ToUint8Array [97] = [] :=
  base64_malformed_empty.1 [97] (by decide)

/-! ### Text codec (`stringToUint8Array` via `TextEncoder`,
`uint8ArrayToString` via strict `TextDecoder`) -/

/-- UTF-8 continuation byte. -/
def isUtf8Cont (b : Nat) : Bool := 0x80 ≤ b && b ≤ 0xBF

/-- Strict UTF-8 decoding of one scalar value: returns the scalar and the
remaining bytes, rejecting overlong forms, surrogates and values above
`U+10FFFF` (the behavior of `TextDecoder` with `fatal: true`). -/
def utf8DecodeOne : List Nat → Option (Nat × List Nat)
  | [] => none
  | b0 :: t =>
    if b0 ≤ 0x7F then some (b0, t)
    else if 0xC2 ≤ b0 ∧ b0 ≤ 0xDF then
      match t with
      | b1 :: t1 =>
        if isUtf8Cont b1 then some ((b0 - 0xC0) * 64 + (b1 - 0x80), t1) else none
      | [] => none
    else if 0xE0 ≤ b0 ∧ b0 ≤ 0xEF then
      match t with
      | b1 :: b2 :: t2 =>
        if (if b0 = 0xE0 then 0xA0 ≤ b1 ∧ b1 ≤ 0xBF
            else if b0 = 0xED then 0x80 ≤ b1 ∧ b1 ≤ 0x9F
            else isUtf8Cont b1 = true) ∧ isUtf8Cont b2 = true then
          some ((b0 - 0xE0) * 4096 + (b1 - 0x80) * 64 + (b2 - 0x80), t2)
        else none
      | _ => none
    else if 0xF0 ≤ b0 ∧ b0 ≤ 0xF4 then
      match t with
      | b1 :: b2 :: b3 :: t3 =>
        if (if b0 = 0xF0 then 0x90 ≤ b1 ∧ b1 ≤ 0xBF
            else if b0 = 0xF4 then 0x80 ≤ b1 ∧ b1 ≤ 0x8F
            else isUtf8Cont b1 = true) ∧ isUtf8Cont b2 = true ∧ isUtf8Cont b3 = true then
          some ((b0 - 0xF0) * 262144 + (b1 - 0x80) * 4096 + (b2 - 0x80) * 64 + (b3 - 0x80), t3)
        else none
      | _ => none
    else none

/-- UTF-8 encoding of one scalar value (`TextEncoder`'s per-character
output). -/
def utf8EncodeChar (c : Nat) : List Nat :=
  if c < 0x80 then [c]
  else if c < 0x800 then [0xC0 + c / 64, 0x80 + c % 64]
  else if c < 0x10000 then [0xE0 + c / 4096, 0x80 + c / 64 % 64, 0x80 + c % 64]
  else [0xF0 + c / 262144, 0x80 + c / 4096 % 64, 0x80 + c / 64 % 64, 0x80 + c % 64]

/-- Model of `stringToUint8Array` (`new TextEncoder().encode(str)`): the
string, as a list of Unicode scalar values, encoded to UTF-8 bytes. -/
def utf8Encode (cs : List Nat) : List Nat := cs.flatMap utf8EncodeChar

/-- Fuel-indexed strict UTF-8 decoding of a whole byte sequence. -/
def utf8DecodeAux : Nat → List Nat → Option (List Nat)
  | _, [] => some []
  | 0, _ :: _ => none
  | fuel + 1, b :: t =>
    match utf8DecodeOne (b :: t) with
    | none => none
    | some (c, r) => (utf8DecodeAux fuel r).map (fun cs => c :: cs)

/-- Strict UTF-8 decoding (`new TextDecoder('utf-8', { fatal: true })`):
`none` models the thrown `TypeError`. One byte yields at least one scalar,
so the input length is enough fuel. -/
def utf8Decode (l : List Nat) : Option (List Nat) := utf8DecodeAux l.length l

/-- Model of `stringToUint8Array`. -/
def stringToUint8Array (s : List Nat) : List Nat := utf8Encode s

/-- The character codes of the sentinel string `"[Binary Content]"`. -/
def binaryContentStr : List Nat :=
  [91, 66, 105, 110, 97, 114, 121, 32, 67, 111, 110, 116, 101, 110, 116, 93]

/-- Model of `uint8ArrayToString`: strict UTF-8 decode, the failure branch
returning the sentinel placeholder string. -/
def uint8ArrayToString (a : List Nat) : List Nat :=
  match utf8Decode a with
  | some cs => cs
  | none => binaryContentStr

theorem utf8EncodeChar_two (b0 b1 : Nat) (h0 : 0xC2 ≤ b0) (h0' : b0 ≤ 0xDF)
    (h1 : 0x80 ≤ b1) (h1' : b1 ≤ 0xBF) :
    utf8EncodeChar ((b0 - 0xC0) * 64 + (b1 - 0x80)) = [b0, b1] := by
  unfold utf8EncodeChar
  rw [if_neg (by omega), if_pos (by omega)]
  simp only [List.cons.injEq, and_true]
  exact ⟨by omega, by omega⟩

theorem utf8EncodeChar_three (b0 b1 b2 : Nat) (h0 : 0xE0 ≤ b0) (h0' : b0 ≤ 0xEF)
    (h1 : 0x80 ≤ b1) (h1' : b1 ≤ 0xBF) (h2 : 0x80 ≤ b2) (h2' : b2 ≤ 0xBF)
    (hc : 0x800 ≤ (b0 - 0xE0) * 4096 + (b1 - 0x80) * 64 + (b2 - 0x80)) :
    utf8EncodeChar ((b0 - 0xE0) * 4096 + (b1 - 0x80) * 64 + (b2 - 0x80)) = [b0, b1, b2] := by
  unfold utf8EncodeChar
  rw [if_neg (by omega), if_neg (by omega), if_pos (by omega)]
  simp only [List.cons.injEq, and_true]
  exact ⟨by omega, by omega, by omega⟩

theorem utf8EncodeChar_four (b0 b1 b2 b3 : Nat) (h0 : 0xF0 ≤ b0) (h0' : b0 ≤ 0xF4)
    (h1 : 0x80 ≤ b1) (h1' : b1 ≤ 0xBF) (h2 : 0x80 ≤ b2) (h2' : b2 ≤ 0xBF)
    (h3 : 0x80 ≤ b3) (h3' : b3 ≤ 0xBF)
    (hc : 0x10000 ≤ (b0 - 0xF0) * 262144 + (b1 - 0x80) * 4096 + (b2 - 0x80) * 64 + (b3 - 0x80)) :
    utf8EncodeChar ((b0 - 0xF0) * 262144 + (b1 - 0x80) * 4096 + (b2 - 0x80) * 64 + (b3 - 0x80))
      = [b0, b1, b2, b3] := by
  unfold utf8EncodeChar
  rw [if_neg (by omega), if_neg (by omega), if_neg (by omega)]
  simp only [List.cons.injEq, and_true]
  exact ⟨by omega, by omega, by omega, by omega⟩


theorem utf8DecodeOne_spec (l : List Nat) (c : Nat) (r : List Nat)
    (hd : utf8DecodeOne l = some (c, r)) : utf8EncodeChar c ++ r = l := by
  cases l with
  | nil => simp [utf8DecodeOne] at hd
  | cons b0 t =>
    simp only [utf8DecodeOne] at hd
    split at hd
    · rename_i ha
      obtain ⟨rfl, rfl⟩ : b0 = c ∧ t = r := by simpa using hd
      simp [utf8EncodeChar, show b0 < 0x80 by omega]
    · rename_i ha
      split at hd
      · rename_i hb
        split at hd
        · rename_i b1 t1
          split at hd
          · rename_i hcont
            obtain ⟨rfl, rfl⟩ : (b0 - 0xC0) * 64 + (b1 - 0x80) = c ∧ t1 = r := by
              simpa using hd
            simp only [isUtf8Cont, Bool.and_eq_true, decide_eq_true_eq] at hcont
            rw [utf8EncodeChar_two b0 b1 hb.1 hb.2 hcont.1 hcont.2]
            rfl
          · simp at hd
        · simp at hd
      · rename_i hb
        split at hd
        · rename_i h3
          split at hd
          · rename_i b1 b2 t2
            by_cases hP : (if b0 = 0xE0 then 0xA0 ≤ b1 ∧ b1 ≤ 0xBF
                else if b0 = 0xED then 0x80 ≤ b1 ∧ b1 ≤ 0x9F
                else isUtf8Cont b1 = true) ∧ isUtf8Cont b2 = true
            · rw [if_pos hP] at hd
              obtain ⟨hb1, hb2⟩ := hP
              simp only [isUtf8Cont, Bool.and_eq_true, decide_eq_true_eq] at hb2
              have hbnd : 0x80 ≤ b1 ∧ b1 ≤ 0xBF ∧
                  0x800 ≤ (b0 - 0xE0) * 4096 + (b1 - 0x80) * 64 + (b2 - 0x80) := by
                by_cases he : b0 = 0xE0
                · rw [if_pos he] at hb1
                  subst he
                  exact ⟨by omega, hb1.2, by omega⟩
                · rw [if_neg he] at hb1
                  by_cases hed : b0 = 0xED
                  · rw [if_pos hed] at hb1
                    subst hed
                    exact ⟨hb1.1, by omega, by omega⟩
                  · rw [if_neg hed] at hb1
                    simp only [isUtf8Cont, Bool.and_eq_true, decide_eq_true_eq] at hb1
                    exact ⟨hb1.1, hb1.2, by omega⟩
              obtain ⟨rfl, rfl⟩ :
                  (b0 - 0xE0) * 4096 + (b1 - 0x80) * 64 + (b2 - 0x80) = c ∧ t2 = r := by
                simpa using hd
              rw [utf8EncodeChar_three b0 b1 b2 h3.1 h3.2 hbnd.1 hbnd.2.1
                hb2.1 hb2.2 hbnd.2.2]
              rfl
            · rw [if_neg hP] at hd
              simp at hd
          · simp at hd
        · rename_i h3
          split at hd
          · rename_i h4
            split at hd
            · rename_i b1 b2 b3 t3
              by_cases hP : (if b0 = 0xF0 then 0x90 ≤ b1 ∧ b1 ≤ 0xBF
                  else if b0 = 0xF4 then 0x80 ≤ b1 ∧ b1 ≤ 0x8F
                  else isUtf8Cont b1 = true) ∧ isUtf8Cont b2 = true ∧ isUtf8Cont b3 = true
              · rw [if_pos hP] at hd
                obtain ⟨hb1, hb2, hb3⟩ := hP
                simp only [isUtf8Cont, Bool.and_eq_true, decide_eq_true_eq] at hb2 hb3
                have hbnd : 0x80 ≤ b1 ∧ b1 ≤ 0xBF ∧
                    0x10000 ≤ (b0 - 0xF0) * 262144 + (b1 - 0x80) * 4096
                      + (b2 - 0x80) * 64 + (b3 - 0x80) := by
                  by_cases he : b0 = 0xF0
                  · rw [if_pos he] at hb1
                    subst he
                    exact ⟨by omega, hb1.2, by omega⟩
                  · rw [if_neg he] at hb1
                    by_cases hed : b0 = 0xF4
                    · rw [if_pos hed] at hb1
                      subst hed
                      exact ⟨hb1.1, by omega, by omega⟩
                    · rw [if_neg hed] at hb1
                      simp only [isUtf8Cont, Bool.and_eq_true, decide_eq_true_eq] at hb1
                      exact ⟨hb1.1, hb1.2, by omega⟩
                obtain ⟨rfl, rfl⟩ :
                    (b0 - 0xF0) * 262144 + (b1 - 0x80) * 4096 + (b2 - 0x80) * 64
                      + (b3 - 0x80) = c ∧ t3 = r := by
                  simpa using hd
                rw [utf8EncodeChar_four b0 b1 b2 b3 h4.1 h4.2 hbnd.1 hbnd.2.1
                  hb2.1 hb2.2 hb3.1 hb3.2 hbnd.2.2]
                rfl
              · rw [if_neg hP] at hd
                simp at hd
            · simp at hd
          · simp at hd

theorem utf8DecodeAux_encode (fuel : Nat) :
    ∀ l cs, utf8DecodeAux fuel l = some cs → utf8Encode cs = l := by
  induction fuel with
  | zero =>
    intro l cs h
    cases l with
    | nil =>
      obtain rfl : cs = [] := by simpa [utf8DecodeAux] using h.symm
      rfl
    | cons b t => simp [utf8DecodeAux] at h
  | succ n ih =>
    intro l cs h
    cases l with
    | nil =>
      obtain rfl : cs = [] := by simpa [utf8DecodeAux] using h.symm
      rfl
    | cons b t =>
      simp only [utf8DecodeAux] at h
      rcases hone : utf8DecodeOne (b :: t) with _ | ⟨c, r⟩
      · rw [hone] at h
        simp at h
      · rw [hone] at h
        obtain ⟨cs', hcs', rfl⟩ := Option.map_eq_some'.mp h
        have henc : utf8Encode cs' = r := ih r cs' hcs'
        have hspec := utf8DecodeOne_spec (b :: t) c r hone
        show utf8EncodeChar c ++ utf8Encode cs' = b :: t
        rw [henc, hspec]

/-- C7: text round trip — for every byte sequence that is valid UTF-8
(strict decoding succeeds), encoding the decoded string back to UTF-8
yields the original bytes: `stringToUint8Array (uint8ArrayToString b) = b`. -/
theorem text_roundtrip (b : List Nat) (h : (utf8Decode b).isSome) :
    stringToUint8Array (uint8ArrayToString b) = b := by
  obtain ⟨cs, hcs⟩ := Option.isSome_iff_exists.mp h
  unfold uint8ArrayToString
  rw [hcs]
  exact utf8DecodeAux_encode b.length b cs hcs

/-- Witness for C7 at the valid UTF-8 bytes of `"Hé"` (`0x48 0xC3 0xA9`). -/
theorem text_roundtrip_witness :
    stringToUint8Array (uint8ArrayToString [0x48, 0xC3, 0xA9]) = [0x48, 0xC3, 0xA9] :=
  text_roundtrip _ (by decide)

end XorLab
